import Mathlib

/-!
Verification of the ODE solver core of the Cauchy_problem repository
(`src/cpp/ode_solver.hpp`), shallowly embedded over exact rational
arithmetic.  `State`, the step functions, the three solve loops and the
Runge error estimator are direct translations of the C++ code; the
bounded `while` loops are realised with an explicit fuel argument whose
value is provably sufficient for a positive step size.
-/

namespace ode

/-- One sample (x, y, y') of the solution trajectory; mirrors `ode::State`. -/
structure State where
  x : ℚ
  y : ℚ
  dy : ℚ
deriving DecidableEq

instance : Inhabited State := ⟨⟨0, 0, 0⟩⟩

/-- The user-supplied second-order ODE right-hand side f(x, y, y'). -/
abbrev SecondOrderODE := ℚ → ℚ → ℚ → ℚ

/-- `ODESolver::system`: the first-order reduction (dy/dx, dy'/dx) at a state. -/
def system (f : SecondOrderODE) (s : State) : ℚ × ℚ :=
  (s.dy, f s.x s.y s.dy)

/-- `ODESolver::rk4Step`: one classical fourth-order Runge–Kutta step. -/
def rk4Step (f : SecondOrderODE) (current : State) (h : ℚ) : State :=
  let k1 := system f current
  let k2s : State := ⟨current.x + h/2, current.y + h/2 * k1.1, current.dy + h/2 * k1.2⟩
  let k2 := system f k2s
  let k3s : State := ⟨current.x + h/2, current.y + h/2 * k2.1, current.dy + h/2 * k2.2⟩
  let k3 := system f k3s
  let k4s : State := ⟨current.x + h, current.y + h * k3.1, current.dy + h * k3.2⟩
  let k4 := system f k4s
  ⟨current.x + h,
   current.y + h/6 * (k1.1 + 2*k2.1 + 2*k3.1 + k4.1),
   current.dy + h/6 * (k1.2 + 2*k2.2 + 2*k3.2 + k4.2)⟩

/-- `ODESolver::eulerStep`: one explicit Euler step. -/
def eulerStep (f : SecondOrderODE) (current : State) (h : ℚ) : State :=
  let k := system f current
  ⟨current.x + h, current.y + h * k.1, current.dy + h * k.2⟩

/-- `ODESolver::adams3Step`: one third-order Adams–Bashforth step, reading the
last three states of the trajectory built so far (`back()`, `size()-2`,
`size()-3` in the C++ code). -/
def adams3Step (f : SecondOrderODE) (prev_states : List State) (h : ℚ) : State :=
  let current := prev_states.getLastD default
  let prev1 := prev_states.getD (prev_states.length - 2) default
  let prev2 := prev_states.getD (prev_states.length - 3) default
  let f0 := system f current
  let f1 := system f prev1
  let f2 := system f prev2
  ⟨current.x + h,
   current.y + h * (23*f0.1 - 16*f1.1 + 5*f2.1) / 12,
   current.dy + h * (23*f0.2 - 16*f1.2 + 5*f2.2) / 12⟩

/-- The shared `while (current.x < x_end - h/2)` loop of `solveEuler` and
`solveRK4`, returning the list of states appended after the initial one.
The fuel argument bounds the number of iterations; `fuelFor` below always
provides enough fuel when `0 < h`, so within that fuel the loop exits
through its guard exactly as the C++ loop does. -/
def stepLoop (step : State → State) (bound : ℚ) : Nat → State → List State
  | 0, _ => []
  | n+1, current =>
    if current.x < bound then
      let nxt := step current
      nxt :: stepLoop step bound n nxt
    else []

/-- Fuel sufficient for a loop that starts at `x0`, advances by `h > 0` per
iteration and stops once the coordinate reaches `bound`. -/
def fuelFor (x0 bound h : ℚ) : Nat := (⌈(bound - x0) / h⌉).toNat + 1

/-- `ODESolver::solveRK4`. -/
def solveRK4 (f : SecondOrderODE) (init : State) (h x_end : ℚ) : List State :=
  init :: stepLoop (fun s => rk4Step f s h) (x_end - h/2) (fuelFor init.x (x_end - h/2) h) init

/-- `ODESolver::solveEuler`. -/
def solveEuler (f : SecondOrderODE) (init : State) (h x_end : ℚ) : List State :=
  init :: stepLoop (fun s => eulerStep f s h) (x_end - h/2) (fuelFor init.x (x_end - h/2) h) init

/-- The `while (solution.back().x < x_end - h/2)` loop of `solveAdams3`,
which appends `adams3Step` results to the whole trajectory built so far. -/
def adamsLoop (f : SecondOrderODE) (h bound : ℚ) : Nat → List State → List State
  | 0, acc => acc
  | n+1, acc =>
    if (acc.getLastD default).x < bound then
      adamsLoop f h bound n (acc ++ [adams3Step f acc h])
    else acc

/-- `ODESolver::solveAdams3`: two RK4 bootstrap steps, then the Adams loop. -/
def solveAdams3 (f : SecondOrderODE) (init : State) (h x_end : ℚ) : List State :=
  let s1 := rk4Step f init h
  let s2 := rk4Step f s1 h
  adamsLoop f h (x_end - h/2) (fuelFor init.x (x_end - h/2) h) [init, s1, s2]

/-- The `for (i = 0; i < fine.size(); i += 2)` loop of
`ODESolver::calculateRungeError`, which breaks once `coarse` is exhausted. -/
def rungeGo (p : ℤ) : List State → List State → List ℚ
  | [], _ => []
  | _ :: _, [] => []
  | f0 :: [], c0 :: _ => [ |f0.y - c0.y| / (1 - (2:ℚ)^(-p)) ]
  | f0 :: _ :: frest, c0 :: crest =>
      (|f0.y - c0.y| / (1 - (2:ℚ)^(-p))) :: rungeGo p frest crest

/-- `ODESolver::calculateRungeError` (Richardson error estimate of order p). -/
def calculateRungeError (fine coarse : List State) (p : ℤ) : List ℚ :=
  rungeGo p fine coarse

/-- The `ode::ODESolver` object: the stored ODE and the initial state,
fixed at construction.  The solve methods never assign to these members. -/
structure ODESolver where
  m_ode : SecondOrderODE
  m_initial_state : State

/-- `solveRK4` as a method call on the solver object, with the object state
threaded explicitly: the method body contains no member assignment, so the
returned object is the receiver unchanged. -/
def ODESolver.solveRK4Call (s : ODESolver) (h x_end : ℚ) : ODESolver × List State :=
  (s, solveRK4 s.m_ode s.m_initial_state h x_end)

/-- `solveEuler` as a method call on the solver object. -/
def ODESolver.solveEulerCall (s : ODESolver) (h x_end : ℚ) : ODESolver × List State :=
  (s, solveEuler s.m_ode s.m_initial_state h x_end)

/-- `solveAdams3` as a method call on the solver object. -/
def ODESolver.solveAdams3Call (s : ODESolver) (h x_end : ℚ) : ODESolver × List State :=
  (s, solveAdams3 s.m_ode s.m_initial_state h x_end)

/-- The identically-zero right-hand side, used as a concrete ODE in
witnesses and counterexamples. -/
def zeroODE : SecondOrderODE := fun _ _ _ => 0

/-! ### Helper list lemmas -/

theorem getLast?_cons_getLastD {α : Type} (a : α) (t : List α) (d : α) :
    (a :: t).getLast? = some ((a :: t).getLastD d) := by
  induction t generalizing a with
  | nil => rfl
  | cons b t ih =>
    rw [List.getLast?_cons_cons, List.getLastD_cons]
    exact ih b

theorem getLastD_of_ne_nil {α : Type} {l : List α} (h : l ≠ []) (d₁ d₂ : α) :
    l.getLastD d₁ = l.getLastD d₂ := by
  cases l with
  | nil => exact absurd rfl h
  | cons a t => rw [List.getLastD_cons, List.getLastD_cons]

theorem drop_length_sub_one {α : Type} {l : List α} (h : l ≠ []) (d : α) :
    l.drop (l.length - 1) = [l.getLastD d] := by
  induction l with
  | nil => exact absurd rfl h
  | cons a t ih =>
    cases t with
    | nil => rfl
    | cons b t' =>
      rw [List.getLastD_cons]
      have hlen : (a :: b :: t').length - 1 = (b :: t').length - 1 + 1 := by
        simp [List.length_cons]
      rw [hlen, List.drop_succ_cons]
      exact ih (List.cons_ne_nil b t')

/-! ### Facts about the Euler/RK4 driving loop -/

/-- The step functions advance the x coordinate by exactly `h`. -/
theorem rk4Step_x (f : SecondOrderODE) (s : State) (h : ℚ) :
    (rk4Step f s h).x = s.x + h := rfl

theorem eulerStep_x (f : SecondOrderODE) (s : State) (h : ℚ) :
    (eulerStep f s h).x = s.x + h := rfl

theorem adams3Step_x (f : SecondOrderODE) (l : List State) (h : ℚ) :
    (adams3Step f l h).x = (l.getLastD default).x + h := rfl

theorem stepLoop_of_stopped {step : State → State} {bound : ℚ} {c : State}
    (hc : ¬ c.x < bound) (n : Nat) : stepLoop step bound n c = [] := by
  cases n with
  | zero => rfl
  | succ m => simp [stepLoop, hc]

theorem stepLoop_chain (step : State → State) (bound : ℚ) :
    ∀ (n : Nat) (c : State),
      List.Chain' (fun a b => b = step a) (c :: stepLoop step bound n c) := by
  intro n
  induction n with
  | zero => intro c; exact List.chain'_singleton c
  | succ m ih =>
    intro c
    by_cases hc : c.x < bound
    · simp only [stepLoop, hc, if_true]
      exact List.chain'_cons.mpr ⟨rfl, ih (step c)⟩
    · simp only [stepLoop, hc, if_false]
      exact List.chain'_singleton c

theorem stepLoop_last_ge {h : ℚ} {step : State → State}
    (hstep : ∀ s, (step s).x = s.x + h) (bound : ℚ) :
    ∀ (n : Nat) (c : State), bound ≤ c.x + n * h →
      bound ≤ ((c :: stepLoop step bound n c).getLastD default).x := by
  intro n
  induction n with
  | zero =>
    intro c hc
    simpa using hc
  | succ m ih =>
    intro c hc
    by_cases hguard : c.x < bound
    · simp only [stepLoop, hguard, if_true, List.getLastD_cons]
      have hrec : bound ≤ (step c).x + m * h := by
        rw [hstep c]
        calc bound ≤ c.x + (m + 1 : Nat) * h := hc
          _ = c.x + h + m * h := by push_cast; ring
      have := ih (step c) hrec
      rwa [List.getLastD_cons] at this
    · simp only [stepLoop, hguard, if_false, List.getLastD_cons, List.getLastD]
      exact le_of_not_lt hguard

theorem stepLoop_dropLast_lt {step : State → State} (bound : ℚ) :
    ∀ (n : Nat) (c : State),
      ∀ a ∈ (c :: stepLoop step bound n c).dropLast, a.x < bound := by
  intro n
  induction n with
  | zero =>
    intro c a ha
    simp [stepLoop, List.dropLast_single] at ha
  | succ m ih =>
    intro c a ha
    by_cases hguard : c.x < bound
    · simp only [stepLoop, hguard, if_true] at ha
      rw [List.dropLast_cons₂, List.mem_cons] at ha
      rcases ha with rfl | ha
      · exact hguard
      · exact ih (step c) a ha
    · simp [stepLoop, hguard, List.dropLast_single] at ha

theorem stepLoop_last_lt {h : ℚ} {step : State → State}
    (hstep : ∀ s, (step s).x = s.x + h) (bound : ℚ) :
    ∀ (n : Nat) (c : State), c.x < bound + h →
      ((c :: stepLoop step bound n c).getLastD default).x < bound + h := by
  intro n
  induction n with
  | zero =>
    intro c hc
    simpa using hc
  | succ m ih =>
    intro c hc
    by_cases hguard : c.x < bound
    · simp only [stepLoop, hguard, if_true, List.getLastD_cons]
      have hrec : (step c).x < bound + h := by
        rw [hstep c]; linarith
      have := ih (step c) hrec
      rwa [List.getLastD_cons] at this
    · simpa [stepLoop, hguard] using hc

theorem stepLoop_length {h : ℚ} {step : State → State}
    (hstep : ∀ s, (step s).x = s.x + h) (bound : ℚ) (hh : 0 < h) :
    ∀ (n : Nat) (c : State),
      (stepLoop step bound n c).length ≤ (⌈(bound - c.x) / h⌉).toNat := by
  intro n
  induction n with
  | zero => intro c; simp [stepLoop]
  | succ m ih =>
    intro c
    by_cases hguard : c.x < bound
    · simp only [stepLoop, hguard, if_true, List.length_cons]
      have hq : (0:ℚ) < (bound - c.x) / h := div_pos (by linarith) hh
      have hceil : (1:ℤ) ≤ ⌈(bound - c.x) / h⌉ := Int.ceil_pos.mpr hq
      have hstepc : (bound - (step c).x) / h = (bound - c.x) / h - 1 := by
        rw [hstep c]
        field_simp
        ring
      have := ih (step c)
      rw [hstepc, Int.ceil_sub_one] at this
      omega
    · simp [stepLoop, hguard]

/-- The fuel `fuelFor` is always sufficient when the step size is positive. -/
theorem fuelFor_sufficient (x0 bound h : ℚ) (hh : 0 < h) :
    bound ≤ x0 + (fuelFor x0 bound h : ℚ) * h := by
  set q : ℚ := (bound - x0) / h with hq
  have h1 : q ≤ ((⌈q⌉.toNat : ℤ) : ℚ) := by
    calc q ≤ (⌈q⌉ : ℚ) := Int.le_ceil q
      _ ≤ ((⌈q⌉.toNat : ℤ) : ℚ) := by exact_mod_cast Int.self_le_toNat _
  have h2 : q ≤ (fuelFor x0 bound h : ℚ) := by
    unfold fuelFor
    push_cast
    push_cast at h1
    linarith
  have h3 : q * h ≤ (fuelFor x0 bound h : ℚ) * h :=
    mul_le_mul_of_nonneg_right h2 (le_of_lt hh)
  have h4 : q * h = bound - x0 := by
    rw [hq]; field_simp
  linarith

/-! ### Facts about the Adams driving loop -/

theorem adamsLoop_of_stopped {f : SecondOrderODE} {h bound : ℚ} {acc : List State}
    (hguard : ¬ (acc.getLastD default).x < bound) (n : Nat) :
    adamsLoop f h bound n acc = acc := by
  cases n with
  | zero => rfl
  | succ m =>
    simp only [adamsLoop]
    rw [if_neg hguard]

theorem adamsLoop_append (f : SecondOrderODE) (h bound : ℚ) :
    ∀ (n : Nat) (acc : List State), ∃ ext, adamsLoop f h bound n acc = acc ++ ext := by
  intro n
  induction n with
  | zero => intro acc; exact ⟨[], by simp [adamsLoop]⟩
  | succ m ih =>
    intro acc
    by_cases hguard : (acc.getLastD default).x < bound
    · obtain ⟨ext, hext⟩ := ih (acc ++ [adams3Step f acc h])
      refine ⟨[adams3Step f acc h] ++ ext, ?_⟩
      simp only [adamsLoop, hguard, if_true]
      rw [hext, List.append_assoc]
    · exact ⟨[], by rw [List.append_nil, adamsLoop_of_stopped hguard]⟩

theorem adamsLoop_last_ge (f : SecondOrderODE) (h bound : ℚ) :
    ∀ (n : Nat) (acc : List State), acc ≠ [] →
      bound ≤ (acc.getLastD default).x + n * h →
      bound ≤ ((adamsLoop f h bound n acc).getLastD default).x := by
  intro n
  induction n with
  | zero =>
    intro acc _ hacc
    simpa using hacc
  | succ m ih =>
    intro acc hne hacc
    by_cases hguard : (acc.getLastD default).x < bound
    · simp only [adamsLoop, hguard, if_true]
      refine ih (acc ++ [adams3Step f acc h]) (by simp) ?_
      rw [List.getLastD_concat, adams3Step_x]
      calc bound ≤ (acc.getLastD default).x + (m + 1 : Nat) * h := hacc
        _ = (acc.getLastD default).x + h + m * h := by push_cast; ring
    · simp only [adamsLoop, hguard, if_false]
      exact le_of_not_lt hguard

theorem drop_append_length_sub_one {α : Type} {l : List α} (hl : l ≠ []) (d : α)
    (rest : List α) : (l ++ rest).drop (l.length - 1) = l.getLastD d :: rest := by
  rw [List.drop_append_eq_append_drop, drop_length_sub_one hl d,
      Nat.sub_eq_zero_of_le (Nat.sub_le _ _), List.drop_zero]
  rfl

theorem adamsLoop_mid_lt (f : SecondOrderODE) (h bound : ℚ) :
    ∀ (n : Nat) (acc : List State), acc ≠ [] →
      ∀ a ∈ ((adamsLoop f h bound n acc).drop (acc.length - 1)).dropLast, a.x < bound := by
  intro n
  induction n with
  | zero =>
    intro acc hne a ha
    simp only [adamsLoop] at ha
    rw [drop_length_sub_one hne default, List.dropLast_single] at ha
    simp at ha
  | succ m ih =>
    intro acc hne a ha
    by_cases hguard : (acc.getLastD default).x < bound
    · simp only [adamsLoop, hguard, if_true] at ha
      obtain ⟨ext, hext⟩ := adamsLoop_append f h bound m (acc ++ [adams3Step f acc h])
      have hX : (adamsLoop f h bound m (acc ++ [adams3Step f acc h])).drop (acc.length - 1)
          = acc.getLastD default :: adams3Step f acc h :: ext := by
        rw [hext, List.append_assoc]
        exact drop_append_length_sub_one hne default _
      rw [hX, List.dropLast_cons₂, List.mem_cons] at ha
      rcases ha with rfl | ha
      · exact hguard
      · refine ih (acc ++ [adams3Step f acc h]) (by simp) a ?_
        have hY : (adamsLoop f h bound m (acc ++ [adams3Step f acc h])).drop
            ((acc ++ [adams3Step f acc h]).length - 1) = adams3Step f acc h :: ext := by
          rw [hext, drop_append_length_sub_one (by simp) default ext, List.getLastD_concat]
        rw [hY]
        exact ha
    · simp only [adamsLoop, hguard, if_false] at ha
      rw [drop_length_sub_one hne default, List.dropLast_single] at ha
      simp at ha

theorem adamsLoop_last_or (f : SecondOrderODE) (h bound : ℚ) :
    ∀ (n : Nat) (acc : List State),
      adamsLoop f h bound n acc = acc ∨
        ((adamsLoop f h bound n acc).getLastD default).x < bound + h := by
  intro n
  induction n with
  | zero => intro acc; exact Or.inl rfl
  | succ m ih =>
    intro acc
    by_cases hguard : (acc.getLastD default).x < bound
    · simp only [adamsLoop, hguard, if_true]
      rcases ih (acc ++ [adams3Step f acc h]) with heq | hlt
      · rw [heq, List.getLastD_concat, adams3Step_x]
        exact Or.inr (by linarith)
      · exact Or.inr hlt
    · exact Or.inl (adamsLoop_of_stopped hguard (m + 1))

theorem adamsLoop_chain (f : SecondOrderODE) (h bound : ℚ) :
    ∀ (n : Nat) (acc : List State), acc ≠ [] →
      List.Chain' (fun a b => b.x = a.x + h) acc →
      List.Chain' (fun a b => b.x = a.x + h) (adamsLoop f h bound n acc) := by
  intro n
  induction n with
  | zero => intro acc _ hchain; exact hchain
  | succ m ih =>
    intro acc hne hchain
    by_cases hguard : (acc.getLastD default).x < bound
    · simp only [adamsLoop, hguard, if_true]
      refine ih (acc ++ [adams3Step f acc h]) (by simp) ?_
      refine List.chain'_append.mpr ⟨hchain, List.chain'_singleton _, ?_⟩
      intro x hx y hy
      cases acc with
      | nil => exact absurd rfl hne
      | cons a t =>
        rw [getLast?_cons_getLastD a t default, Option.mem_def, Option.some_inj] at hx
        rw [List.head?_cons, Option.mem_def, Option.some_inj] at hy
        rw [← hx, ← hy] at *
        exact adams3Step_x f (a :: t) h
    · rw [adamsLoop_of_stopped hguard (m + 1)]
      exact hchain

theorem adamsLoop_length (f : SecondOrderODE) (h bound : ℚ) (hh : 0 < h) :
    ∀ (n : Nat) (acc : List State),
      (adamsLoop f h bound n acc).length ≤
        acc.length + (⌈(bound - (acc.getLastD default).x) / h⌉).toNat := by
  intro n
  induction n with
  | zero => intro acc; exact Nat.le_add_right _ _
  | succ m ih =>
    intro acc
    by_cases hguard : (acc.getLastD default).x < bound
    · simp only [adamsLoop, hguard, if_true]
      have := ih (acc ++ [adams3Step f acc h])
      rw [List.getLastD_concat, adams3Step_x, List.length_append] at this
      have hq : (0:ℚ) < (bound - (acc.getLastD default).x) / h := div_pos (by linarith) hh
      have hceil : (1:ℤ) ≤ ⌈(bound - (acc.getLastD default).x) / h⌉ := Int.ceil_pos.mpr hq
      have hsub : (bound - ((acc.getLastD default).x + h)) / h =
          (bound - (acc.getLastD default).x) / h - 1 := by
        field_simp
        ring
      rw [hsub, Int.ceil_sub_one] at this
      simp only [List.length_singleton] at this
      omega
    · rw [adamsLoop_of_stopped hguard (m + 1)]
      exact Nat.le_add_right _ _

/-! ### Claim theorems -/

/-- C3: for every State `current` and step size `h`, `rk4Step` returns the state
with x advanced by `h` and (y, dy) updated componentwise by
(h/6)·(k1 + 2·k2 + 2·k3 + k4), where k1 = system(current), k2 and k3 are
system evaluations at the half-step shifts along the k1 and k2 slopes, k4 at the
full-step shift along the k3 slopes, and system(s) = (s.dy, f(s.x, s.y, s.dy)). -/
theorem claim_C3_rk4Step_formula (f : SecondOrderODE) (c : State) (h : ℚ) :
    system f c = (c.dy, f c.x c.y c.dy) ∧
    rk4Step f c h =
      (let k1 := system f c
       let k2 := system f ⟨c.x + h/2, c.y + h/2 * k1.1, c.dy + h/2 * k1.2⟩
       let k3 := system f ⟨c.x + h/2, c.y + h/2 * k2.1, c.dy + h/2 * k2.2⟩
       let k4 := system f ⟨c.x + h, c.y + h * k3.1, c.dy + h * k3.2⟩
       (⟨c.x + h,
         c.y + h/6 * (k1.1 + 2*k2.1 + 2*k3.1 + k4.1),
         c.dy + h/6 * (k1.2 + 2*k2.2 + 2*k3.2 + k4.2)⟩ : State)) :=
  ⟨rfl, rfl⟩

/-- C7: for every State `current` and step size `h`, `eulerStep` returns the
state with x = current.x + h, y = current.y + h·dy and dy = current.dy + h·d2y,
where (dy, d2y) = system(current) = (current.dy, f(current.x, current.y, current.dy)). -/
theorem claim_C7_eulerStep_formula (f : SecondOrderODE) (c : State) (h : ℚ) :
    system f c = (c.dy, f c.x c.y c.dy) ∧
    eulerStep f c h = ⟨c.x + h, c.y + h * c.dy, c.dy + h * f c.x c.y c.dy⟩ :=
  ⟨rfl, rfl⟩

/-- C4: for every trajectory with at least 3 points (written `pre ++ [p2, p1, c]`,
so that `c`, `p1`, `p2` are the last three points in reverse chronological
order), `adams3Step` returns the state with x = c.x + h and with y and dy
advanced by h·(23·f0 − 16·f1 + 5·f2)/12 along the respective slope components,
where f0, f1, f2 are the system evaluations at c, p1 and p2. -/
theorem claim_C4_adams3Step_formula (f : SecondOrderODE) (pre : List State)
    (p2 p1 c : State) (h : ℚ) :
    adams3Step f (pre ++ [p2, p1, c]) h =
      ⟨c.x + h,
       c.y + h * (23*(system f c).1 - 16*(system f p1).1 + 5*(system f p2).1) / 12,
       c.dy + h * (23*(system f c).2 - 16*(system f p1).2 + 5*(system f p2).2) / 12⟩ := by
  have hlen : (pre ++ [p2, p1, c]).length = pre.length + 3 := by simp
  have hcur : (pre ++ [p2, p1, c]).getLastD default = c := by
    have hsplit : pre ++ [p2, p1, c] = (pre ++ [p2, p1]) ++ [c] := by simp
    rw [hsplit, List.getLastD_concat]
  have hp1 : (pre ++ [p2, p1, c]).getD ((pre ++ [p2, p1, c]).length - 2) default = p1 := by
    rw [hlen]
    have h2 : pre.length + 3 - 2 = pre.length + 1 := by omega
    rw [h2, List.getD_append_right pre [p2, p1, c] default (pre.length + 1) (by omega)]
    simp
  have hp2 : (pre ++ [p2, p1, c]).getD ((pre ++ [p2, p1, c]).length - 3) default = p2 := by
    rw [hlen]
    have h3 : pre.length + 3 - 3 = pre.length := by omega
    rw [h3, List.getD_append_right pre [p2, p1, c] default pre.length (by omega)]
    simp
  simp only [adams3Step]
  rw [hcur, hp1, hp2]

/-- C5: every `solveAdams3` trajectory has at least 3 elements and its first
three elements are exactly the initial condition followed by two RK4 steps,
unconditionally in `x_end` (in particular also when `x_end < x0 + 2h`). -/
theorem claim_C5_adams3_bootstrap (f : SecondOrderODE) (init : State) (h x_end : ℚ) :
    3 ≤ (solveAdams3 f init h x_end).length ∧
    (solveAdams3 f init h x_end).take 3 =
      [init, rk4Step f init h, rk4Step f (rk4Step f init h) h] := by
  obtain ⟨ext, hext⟩ := adamsLoop_append f h (x_end - h/2)
    (fuelFor init.x (x_end - h/2) h)
    [init, rk4Step f init h, rk4Step f (rk4Step f init h) h]
  simp only [solveAdams3]
  rw [hext]
  constructor
  · simp
  · exact List.take_left [init, rk4Step f init h, rk4Step f (rk4Step f init h) h] ext

/-- C9: the solve methods read but never modify the solver object's stored ODE
and initial state, so a second call with identical arguments returns an
identical trajectory. -/
theorem claim_C9_solve_pure (s : ODESolver) (h x_end : ℚ) :
    (s.solveRK4Call h x_end).1 = s ∧
    ((s.solveRK4Call h x_end).1.solveRK4Call h x_end).2 = (s.solveRK4Call h x_end).2 ∧
    (s.solveEulerCall h x_end).1 = s ∧
    ((s.solveEulerCall h x_end).1.solveEulerCall h x_end).2 = (s.solveEulerCall h x_end).2 ∧
    (s.solveAdams3Call h x_end).1 = s ∧
    ((s.solveAdams3Call h x_end).1.solveAdams3Call h x_end).2 = (s.solveAdams3Call h x_end).2 :=
  ⟨rfl, rfl, rfl, rfl, rfl, rfl⟩

/-- C1 (amended): the solvers perform no argument validation.  With h > 0 and
x_end ≤ x0 each call returns normally: `solveEuler` and `solveRK4` return the
single-point trajectory [initial] and `solveAdams3` still produces its
three-point RK4 bootstrap; no invalid-argument condition is reported. -/
theorem claim_C1_no_validation (f : SecondOrderODE) (init : State) (h x_end : ℚ)
    (hh : 0 < h) (hxe : x_end ≤ init.x) :
    solveEuler f init h x_end = [init] ∧
    solveRK4 f init h x_end = [init] ∧
    solveAdams3 f init h x_end =
      [init, rk4Step f init h, rk4Step f (rk4Step f init h) h] := by
  have hguard : ¬ init.x < x_end - h/2 := by intro hc; linarith
  refine ⟨?_, ?_, ?_⟩
  · simp only [solveEuler]
    rw [stepLoop_of_stopped hguard]
  · simp only [solveRK4]
    rw [stepLoop_of_stopped hguard]
  · simp only [solveAdams3]
    apply adamsLoop_of_stopped
    have hlast : (([init, rk4Step f init h, rk4Step f (rk4Step f init h) h] :
        List State).getLastD default).x = init.x + h + h := by
      rw [show ([init, rk4Step f init h, rk4Step f (rk4Step f init h) h] :
          List State).getLastD default = rk4Step f (rk4Step f init h) h from rfl,
        rk4Step_x, rk4Step_x]
    rw [hlast]
    intro hc; linarith

/-- C1 counterexample: with the invalid step size h = −1 ≤ 0 (and x_end = x0 = 0)
no invalid-argument condition is reported before stepping; the loop guard holds,
so the Euler step function is applied and a trajectory point beyond the initial
condition is appended (in the C++ code this call never returns). -/
theorem claim_C1_counterexample :
    ((-1 : ℚ) ≤ 0) ∧
    1 < (solveEuler zeroODE ⟨0, 0, 0⟩ (-1) 0).length ∧
    (solveEuler zeroODE ⟨0, 0, 0⟩ (-1) 0).getD 1 default
      = eulerStep zeroODE ⟨0, 0, 0⟩ (-1) := by
  have hc : (⌈-(1/2:ℚ)⌉ : ℤ) = 0 := by norm_num
  have hsolve : solveEuler zeroODE ⟨0, 0, 0⟩ (-1) 0 = [⟨0, 0, 0⟩, ⟨-1, 0, 0⟩] := by
    norm_num [solveEuler, stepLoop, fuelFor, eulerStep, system, zeroODE, hc]
  refine ⟨by norm_num, ?_, ?_⟩
  · rw [hsolve]; norm_num
  · rw [hsolve]
    norm_num [eulerStep, system, zeroODE]

/-- Witness for C1 (amended) at f ≡ 0, initial state (0,0,0), h = 1, x_end = 0. -/
theorem claim_C1_witness :
    (0:ℚ) < 1 ∧ (0:ℚ) ≤ (State.mk 0 0 0).x ∧
    solveEuler zeroODE ⟨0, 0, 0⟩ 1 0 = [⟨0, 0, 0⟩] ∧
    solveRK4 zeroODE ⟨0, 0, 0⟩ 1 0 = [⟨0, 0, 0⟩] ∧
    solveAdams3 zeroODE ⟨0, 0, 0⟩ 1 0 =
      [⟨0, 0, 0⟩, rk4Step zeroODE ⟨0, 0, 0⟩ 1,
        rk4Step zeroODE (rk4Step zeroODE ⟨0, 0, 0⟩ 1) 1] :=
  ⟨by norm_num, by decide,
    claim_C1_no_validation zeroODE ⟨0, 0, 0⟩ 1 0 (by norm_num) (by decide)⟩

/-- The stopping window of the Euler solve loop: all elements but the last are
below the stopping bound `x_end − h/2` and the last lands in the half-step
window around `x_end`. -/
theorem solveEuler_window (f : SecondOrderODE) (init : State) (h x_end : ℚ)
    (hh : 0 < h) (hxe : init.x < x_end) :
    (∀ a ∈ (solveEuler f init h x_end).dropLast, a.x < x_end - h/2) ∧
    x_end - h/2 ≤ ((solveEuler f init h x_end).getLastD default).x ∧
    ((solveEuler f init h x_end).getLastD default).x ≤ x_end + h/2 := by
  have hstep : ∀ s : State, ((fun s => eulerStep f s h) s).x = s.x + h := fun s => rfl
  have hsuf : x_end - h/2 ≤ init.x + (fuelFor init.x (x_end - h/2) h : ℚ) * h :=
    fuelFor_sufficient _ _ _ hh
  simp only [solveEuler]
  refine ⟨?_, ?_, ?_⟩
  · exact stepLoop_dropLast_lt (x_end - h/2) (fuelFor init.x (x_end - h/2) h) init
  · exact stepLoop_last_ge hstep (x_end - h/2) _ init hsuf
  · have hlt := stepLoop_last_lt hstep (x_end - h/2)
      (fuelFor init.x (x_end - h/2) h) init (by linarith)
    linarith

/-- The stopping window of the RK4 solve loop. -/
theorem solveRK4_window (f : SecondOrderODE) (init : State) (h x_end : ℚ)
    (hh : 0 < h) (hxe : init.x < x_end) :
    (∀ a ∈ (solveRK4 f init h x_end).dropLast, a.x < x_end - h/2) ∧
    x_end - h/2 ≤ ((solveRK4 f init h x_end).getLastD default).x ∧
    ((solveRK4 f init h x_end).getLastD default).x ≤ x_end + h/2 := by
  have hstep : ∀ s : State, ((fun s => rk4Step f s h) s).x = s.x + h := fun s => rfl
  have hsuf : x_end - h/2 ≤ init.x + (fuelFor init.x (x_end - h/2) h : ℚ) * h :=
    fuelFor_sufficient _ _ _ hh
  simp only [solveRK4]
  refine ⟨?_, ?_, ?_⟩
  · exact stepLoop_dropLast_lt (x_end - h/2) (fuelFor init.x (x_end - h/2) h) init
  · exact stepLoop_last_ge hstep (x_end - h/2) _ init hsuf
  · have hlt := stepLoop_last_lt hstep (x_end - h/2)
      (fuelFor init.x (x_end - h/2) h) init (by linarith)
    linarith

/-- The stopping behaviour of the Adams solve loop: elements appended by the
Adams loop (all but the last, past the bootstrap) are below the stopping bound,
the last element reaches the bound, and the last element is within half a step
past `x_end` unless the trajectory is exactly the unconditional bootstrap. -/
theorem solveAdams3_window (f : SecondOrderODE) (init : State) (h x_end : ℚ)
    (hh : 0 < h) :
    (∀ a ∈ ((solveAdams3 f init h x_end).drop 2).dropLast, a.x < x_end - h/2) ∧
    x_end - h/2 ≤ ((solveAdams3 f init h x_end).getLastD default).x ∧
    (solveAdams3 f init h x_end =
        [init, rk4Step f init h, rk4Step f (rk4Step f init h) h] ∨
      ((solveAdams3 f init h x_end).getLastD default).x ≤ x_end + h/2) := by
  have hne : ([init, rk4Step f init h, rk4Step f (rk4Step f init h) h] :
      List State) ≠ [] := by simp
  have hlast2 : (([init, rk4Step f init h, rk4Step f (rk4Step f init h) h] :
      List State).getLastD default).x = init.x + h + h := by
    rw [show ([init, rk4Step f init h, rk4Step f (rk4Step f init h) h] :
        List State).getLastD default = rk4Step f (rk4Step f init h) h from rfl,
      rk4Step_x, rk4Step_x]
  simp only [solveAdams3]
  refine ⟨?_, ?_, ?_⟩
  · have hmid := adamsLoop_mid_lt f h (x_end - h/2) (fuelFor init.x (x_end - h/2) h)
      [init, rk4Step f init h, rk4Step f (rk4Step f init h) h] hne
    simpa using hmid
  · apply adamsLoop_last_ge f h (x_end - h/2) (fuelFor init.x (x_end - h/2) h) _ hne
    rw [hlast2]
    have hsuf := fuelFor_sufficient init.x (x_end - h/2) h hh
    linarith
  · rcases adamsLoop_last_or f h (x_end - h/2) (fuelFor init.x (x_end - h/2) h)
      [init, rk4Step f init h, rk4Step f (rk4Step f init h) h] with heq | hlt
    · exact Or.inl heq
    · exact Or.inr (by linarith)

/-- C2 (amended): for h > 0 and x_end > x0, `solveEuler` and `solveRK4` append a
step exactly while the last point's x is strictly below `x_end − h/2`, and their
last element's x lies in [x_end − h/2, x_end + h/2].  For `solveAdams3` the
three-point bootstrap is appended unconditionally; the Adams loop then appends
exactly while the last point's x is below `x_end − h/2`, the final x always
reaches `x_end − h/2`, but the upper bound `x_end + h/2` holds only when the
loop actually ran (otherwise the trajectory is exactly the bootstrap, whose last
x is x0 + 2h). -/
theorem claim_C2_stop_window (f : SecondOrderODE) (init : State) (h x_end : ℚ)
    (hh : 0 < h) (hxe : init.x < x_end) :
    (∀ a ∈ (solveEuler f init h x_end).dropLast, a.x < x_end - h/2) ∧
    x_end - h/2 ≤ ((solveEuler f init h x_end).getLastD default).x ∧
    ((solveEuler f init h x_end).getLastD default).x ≤ x_end + h/2 ∧
    (∀ a ∈ (solveRK4 f init h x_end).dropLast, a.x < x_end - h/2) ∧
    x_end - h/2 ≤ ((solveRK4 f init h x_end).getLastD default).x ∧
    ((solveRK4 f init h x_end).getLastD default).x ≤ x_end + h/2 ∧
    (∀ a ∈ ((solveAdams3 f init h x_end).drop 2).dropLast, a.x < x_end - h/2) ∧
    x_end - h/2 ≤ ((solveAdams3 f init h x_end).getLastD default).x ∧
    (solveAdams3 f init h x_end =
        [init, rk4Step f init h, rk4Step f (rk4Step f init h) h] ∨
      ((solveAdams3 f init h x_end).getLastD default).x ≤ x_end + h/2) := by
  obtain ⟨e1, e2, e3⟩ := solveEuler_window f init h x_end hh hxe
  obtain ⟨r1, r2, r3⟩ := solveRK4_window f init h x_end hh hxe
  obtain ⟨a1, a2, a3⟩ := solveAdams3_window f init h x_end hh
  exact ⟨e1, e2, e3, r1, r2, r3, a1, a2, a3⟩

/-- C2 counterexample: for `solveAdams3` with f ≡ 0, x0 = 0, h = 1, x_end = 1/10
the preconditions h > 0 and x_end > x0 hold, yet the returned trajectory's last
element has x = 2, strictly above x_end + h/2 = 3/5 — the claimed closed-interval
bound fails for the Adams variant, and its bootstrap steps were appended although
the last x was already ≥ x_end − h/2. -/
theorem claim_C2_counterexample :
    (0:ℚ) < 1 ∧ (0:ℚ) < 1/10 ∧
    ((solveAdams3 zeroODE ⟨0, 0, 0⟩ 1 (1/10)).getLastD default).x = 2 ∧
    ¬ (((solveAdams3 zeroODE ⟨0, 0, 0⟩ 1 (1/10)).getLastD default).x ≤ 1/10 + 1/2) := by
  have hc : (⌈-(2/5:ℚ)⌉ : ℤ) = 0 := by norm_num
  have hsolve : solveAdams3 zeroODE ⟨0, 0, 0⟩ 1 (1/10) =
      [⟨0, 0, 0⟩, ⟨1, 0, 0⟩, ⟨2, 0, 0⟩] := by
    norm_num [solveAdams3, adamsLoop, adams3Step, rk4Step, fuelFor, system, zeroODE, hc]
  rw [hsolve]
  norm_num

/-- Witness for C2 (amended) at f ≡ 0, initial state (0,0,0), h = 1, x_end = 2. -/
theorem claim_C2_witness :
    (2:ℚ) - 1/2 ≤ ((solveEuler zeroODE ⟨0, 0, 0⟩ 1 2).getLastD default).x ∧
    ((solveEuler zeroODE ⟨0, 0, 0⟩ 1 2).getLastD default).x ≤ 2 + 1/2 ∧
    (2:ℚ) - 1/2 ≤ ((solveRK4 zeroODE ⟨0, 0, 0⟩ 1 2).getLastD default).x ∧
    ((solveRK4 zeroODE ⟨0, 0, 0⟩ 1 2).getLastD default).x ≤ 2 + 1/2 ∧
    (2:ℚ) - 1/2 ≤ ((solveAdams3 zeroODE ⟨0, 0, 0⟩ 1 2).getLastD default).x :=
  have hw := claim_C2_stop_window zeroODE ⟨0, 0, 0⟩ 1 2 (by norm_num) (by decide)
  ⟨hw.2.1, hw.2.2.1, hw.2.2.2.2.1, hw.2.2.2.2.2.1, hw.2.2.2.2.2.2.2.1⟩

/-- Consecutive states of `solveEuler` differ in x by exactly `h`. -/
theorem solveEuler_chain (f : SecondOrderODE) (init : State) (h x_end : ℚ) :
    List.Chain' (fun a b => b.x = a.x + h) (solveEuler f init h x_end) := by
  simp only [solveEuler]
  exact (stepLoop_chain (fun s => eulerStep f s h) (x_end - h/2)
    (fuelFor init.x (x_end - h/2) h) init).imp (fun a b hab => by rw [hab]; rfl)

/-- Consecutive states of `solveRK4` differ in x by exactly `h`. -/
theorem solveRK4_chain (f : SecondOrderODE) (init : State) (h x_end : ℚ) :
    List.Chain' (fun a b => b.x = a.x + h) (solveRK4 f init h x_end) := by
  simp only [solveRK4]
  exact (stepLoop_chain (fun s => rk4Step f s h) (x_end - h/2)
    (fuelFor init.x (x_end - h/2) h) init).imp (fun a b hab => by rw [hab]; rfl)

/-- Consecutive states of `solveAdams3` differ in x by exactly `h`. -/
theorem solveAdams3_chain (f : SecondOrderODE) (init : State) (h x_end : ℚ) :
    List.Chain' (fun a b => b.x = a.x + h) (solveAdams3 f init h x_end) := by
  simp only [solveAdams3]
  apply adamsLoop_chain f h (x_end - h/2) (fuelFor init.x (x_end - h/2) h)
    [init, rk4Step f init h, rk4Step f (rk4Step f init h) h] (by simp)
  exact List.chain'_cons.mpr ⟨rk4Step_x f init h,
    List.chain'_cons.mpr ⟨rk4Step_x f (rk4Step f init h) h, List.chain'_singleton _⟩⟩

/-- C8: every trajectory begins with exactly the constructed initial condition
(x0, y0, dy0); each element's x equals the previous element's x plus the step
size h; hence for h > 0 the x values are strictly increasing. -/
theorem claim_C8_head_and_spacing (f : SecondOrderODE) (x0 y0 dy0 h x_end : ℚ)
    (hh : 0 < h) :
    (solveEuler f ⟨x0, y0, dy0⟩ h x_end).head? = some ⟨x0, y0, dy0⟩ ∧
    List.Chain' (fun a b => b.x = a.x + h) (solveEuler f ⟨x0, y0, dy0⟩ h x_end) ∧
    List.Chain' (fun a b => a.x < b.x) (solveEuler f ⟨x0, y0, dy0⟩ h x_end) ∧
    (solveRK4 f ⟨x0, y0, dy0⟩ h x_end).head? = some ⟨x0, y0, dy0⟩ ∧
    List.Chain' (fun a b => b.x = a.x + h) (solveRK4 f ⟨x0, y0, dy0⟩ h x_end) ∧
    List.Chain' (fun a b => a.x < b.x) (solveRK4 f ⟨x0, y0, dy0⟩ h x_end) ∧
    (solveAdams3 f ⟨x0, y0, dy0⟩ h x_end).head? = some ⟨x0, y0, dy0⟩ ∧
    List.Chain' (fun a b => b.x = a.x + h) (solveAdams3 f ⟨x0, y0, dy0⟩ h x_end) ∧
    List.Chain' (fun a b => a.x < b.x) (solveAdams3 f ⟨x0, y0, dy0⟩ h x_end) := by
  have hstrict : ∀ t : List State, List.Chain' (fun a b => b.x = a.x + h) t →
      List.Chain' (fun a b => a.x < b.x) t :=
    fun t ht => ht.imp (fun a b hab => by rw [hab]; linarith)
  have hadams : (solveAdams3 f ⟨x0, y0, dy0⟩ h x_end).head? = some ⟨x0, y0, dy0⟩ := by
    simp only [solveAdams3]
    obtain ⟨ext, hext⟩ := adamsLoop_append f h (x_end - h/2)
      (fuelFor (State.mk x0 y0 dy0).x (x_end - h/2) h)
      [⟨x0, y0, dy0⟩, rk4Step f ⟨x0, y0, dy0⟩ h, rk4Step f (rk4Step f ⟨x0, y0, dy0⟩ h) h]
    rw [hext]
    rfl
  exact ⟨rfl, solveEuler_chain f ⟨x0, y0, dy0⟩ h x_end,
    hstrict _ (solveEuler_chain f ⟨x0, y0, dy0⟩ h x_end),
    rfl, solveRK4_chain f ⟨x0, y0, dy0⟩ h x_end,
    hstrict _ (solveRK4_chain f ⟨x0, y0, dy0⟩ h x_end),
    hadams, solveAdams3_chain f ⟨x0, y0, dy0⟩ h x_end,
    hstrict _ (solveAdams3_chain f ⟨x0, y0, dy0⟩ h x_end)⟩

/-- Witness for C8 at f ≡ 0, initial condition (0, 0, 0), h = 1, x_end = 2. -/
theorem claim_C8_witness :
    (solveEuler zeroODE ⟨0, 0, 0⟩ 1 2).head? = some ⟨0, 0, 0⟩ ∧
    (solveRK4 zeroODE ⟨0, 0, 0⟩ 1 2).head? = some ⟨0, 0, 0⟩ ∧
    (solveAdams3 zeroODE ⟨0, 0, 0⟩ 1 2).head? = some ⟨0, 0, 0⟩ :=
  have hw := claim_C8_head_and_spacing zeroODE 0 0 0 1 2 (by norm_num)
  ⟨hw.1, hw.2.2.2.1, hw.2.2.2.2.2.2.1⟩

/-- C10: for h > 0 every solve loop exits through its guard — the last
trajectory element's x reaches `x_end − h/2` — and the number of loop
iterations is at most ⌈(x_end − h/2 − x0)/h⌉ (trajectory length is
1 + iterations for `solveEuler`/`solveRK4` and 3 + iterations for
`solveAdams3`), so each solver terminates. -/
theorem claim_C10_termination (f : SecondOrderODE) (init : State) (h x_end : ℚ)
    (hh : 0 < h) :
    (solveEuler f init h x_end).length ≤ (⌈(x_end - h/2 - init.x) / h⌉).toNat + 1 ∧
    x_end - h/2 ≤ ((solveEuler f init h x_end).getLastD default).x ∧
    (solveRK4 f init h x_end).length ≤ (⌈(x_end - h/2 - init.x) / h⌉).toNat + 1 ∧
    x_end - h/2 ≤ ((solveRK4 f init h x_end).getLastD default).x ∧
    (solveAdams3 f init h x_end).length ≤ (⌈(x_end - h/2 - init.x) / h⌉).toNat + 3 ∧
    x_end - h/2 ≤ ((solveAdams3 f init h x_end).getLastD default).x := by
  have hsufE : x_end - h/2 ≤ init.x + (fuelFor init.x (x_end - h/2) h : ℚ) * h :=
    fuelFor_sufficient _ _ _ hh
  have hstepE : ∀ s : State, ((fun s => eulerStep f s h) s).x = s.x + h := fun s => rfl
  have hstepR : ∀ s : State, ((fun s => rk4Step f s h) s).x = s.x + h := fun s => rfl
  have hboot : (([init, rk4Step f init h, rk4Step f (rk4Step f init h) h] :
      List State).getLastD default).x = init.x + h + h := by
    rw [show ([init, rk4Step f init h, rk4Step f (rk4Step f init h) h] :
        List State).getLastD default = rk4Step f (rk4Step f init h) h from rfl,
      rk4Step_x, rk4Step_x]
  refine ⟨?_, ?_, ?_, ?_, ?_, ?_⟩
  · simp only [solveEuler, List.length_cons]
    have := stepLoop_length hstepE (x_end - h/2) hh
      (fuelFor init.x (x_end - h/2) h) init
    omega
  · simp only [solveEuler]
    exact stepLoop_last_ge hstepE (x_end - h/2) _ init hsufE
  · simp only [solveRK4, List.length_cons]
    have := stepLoop_length hstepR (x_end - h/2) hh
      (fuelFor init.x (x_end - h/2) h) init
    omega
  · simp only [solveRK4]
    exact stepLoop_last_ge hstepR (x_end - h/2) _ init hsufE
  · simp only [solveAdams3]
    have hlen := adamsLoop_length f h (x_end - h/2) hh
      (fuelFor init.x (x_end - h/2) h)
      [init, rk4Step f init h, rk4Step f (rk4Step f init h) h]
    rw [hboot] at hlen
    have hmono : (⌈(x_end - h/2 - (init.x + h + h)) / h⌉).toNat ≤
        (⌈(x_end - h/2 - init.x) / h⌉).toNat := by
      apply Int.toNat_le_toNat
      apply Int.ceil_mono
      apply (div_le_div_iff_of_pos_right hh).mpr
      linarith
    simp only [List.length_cons, List.length_nil] at hlen
    omega
  · simp only [solveAdams3]
    apply adamsLoop_last_ge f h (x_end - h/2) (fuelFor init.x (x_end - h/2) h) _ (by simp)
    rw [hboot]
    linarith

/-- Witness for C10 at f ≡ 0, initial state (0, 0, 0), h = 1, x_end = 2. -/
theorem claim_C10_witness :
    (solveEuler zeroODE ⟨0, 0, 0⟩ 1 2).length ≤
      (⌈((2:ℚ) - 1/2 - (State.mk 0 0 0).x) / 1⌉).toNat + 1 ∧
    (2:ℚ) - 1/2 ≤ ((solveEuler zeroODE ⟨0, 0, 0⟩ 1 2).getLastD default).x ∧
    (solveRK4 zeroODE ⟨0, 0, 0⟩ 1 2).length ≤
      (⌈((2:ℚ) - 1/2 - (State.mk 0 0 0).x) / 1⌉).toNat + 1 ∧
    (2:ℚ) - 1/2 ≤ ((solveRK4 zeroODE ⟨0, 0, 0⟩ 1 2).getLastD default).x ∧
    (solveAdams3 zeroODE ⟨0, 0, 0⟩ 1 2).length ≤
      (⌈((2:ℚ) - 1/2 - (State.mk 0 0 0).x) / 1⌉).toNat + 3 ∧
    (2:ℚ) - 1/2 ≤ ((solveAdams3 zeroODE ⟨0, 0, 0⟩ 1 2).getLastD default).x :=
  claim_C10_termination zeroODE ⟨0, 0, 0⟩ 1 2 (by norm_num)

/-- Length of the Runge error loop output, by strong induction on the
fine trajectory's length. -/
theorem rungeGo_length (p : ℤ) :
    ∀ (n : Nat) (fine coarse : List State), fine.length ≤ n →
      (rungeGo p fine coarse).length = min ((fine.length + 1) / 2) coarse.length := by
  intro n
  induction n with
  | zero =>
    intro fine coarse hf
    rw [Nat.le_zero, List.length_eq_zero] at hf
    subst hf
    simp [rungeGo]
  | succ m ih =>
    intro fine coarse hf
    match fine, coarse with
    | [], _ => simp [rungeGo]
    | _ :: _, [] => simp [rungeGo]
    | [f0], c0 :: crest =>
      simp only [rungeGo, List.length_cons, List.length_singleton, List.length_nil]
      omega
    | f0 :: f1 :: frest, c0 :: crest =>
      have hrec := ih frest crest (by simp only [List.length_cons] at hf; omega)
      simp only [rungeGo, List.length_cons, hrec]
      omega

/-- Elementwise value of the Runge error loop output. -/
theorem rungeGo_getD (p : ℤ) :
    ∀ (n : Nat) (fine coarse : List State), fine.length ≤ n →
      ∀ i, i < (rungeGo p fine coarse).length →
        (rungeGo p fine coarse).getD i 0 =
          |(fine.getD (2*i) default).y - (coarse.getD i default).y| /
            (1 - (2:ℚ)^(-p)) := by
  intro n
  induction n with
  | zero =>
    intro fine coarse hf i hi
    rw [Nat.le_zero, List.length_eq_zero] at hf
    subst hf
    simp [rungeGo] at hi
  | succ m ih =>
    intro fine coarse hf i hi
    match fine, coarse with
    | [], _ => simp [rungeGo] at hi
    | _ :: _, [] => simp [rungeGo] at hi
    | [f0], c0 :: crest =>
      simp only [rungeGo, List.length_singleton] at hi
      have hi0 : i = 0 := by omega
      subst hi0
      simp [rungeGo]
    | f0 :: f1 :: frest, c0 :: crest =>
      cases i with
      | zero => simp [rungeGo]
      | succ j =>
        simp only [rungeGo, List.length_cons] at hi
        have hrec := ih frest crest
          (by simp only [List.length_cons] at hf; omega) j (by omega)
        have h2 : 2 * (j + 1) = (2 * j) + 1 + 1 := by ring
        simp only [rungeGo, List.getD_cons_succ, h2]
        exact hrec

/-- C6: `calculateRungeError(fine, coarse, p)` returns exactly
min(⌈len(fine)/2⌉, len(coarse)) values (it never fails on mismatched lengths,
silently truncating to the shorter aligned prefix), and its i-th element is
|fine[2i].y − coarse[i].y| / (1 − 2^−p).  (In Nat arithmetic
⌈len(fine)/2⌉ = (len(fine) + 1) / 2.) -/
theorem claim_C6_runge_error (fine coarse : List State) (p : ℤ) :
    (calculateRungeError fine coarse p).length =
      min ((fine.length + 1) / 2) coarse.length ∧
    ∀ i, i < (calculateRungeError fine coarse p).length →
      (calculateRungeError fine coarse p).getD i 0 =
        |(fine.getD (2*i) default).y - (coarse.getD i default).y| /
          (1 - (2:ℚ)^(-p)) :=
  ⟨rungeGo_length p fine.length fine coarse le_rfl,
   fun i hi => rungeGo_getD p fine.length fine coarse le_rfl i hi⟩

/-- Witness for C6 on a 3-point fine and 2-point coarse trajectory at p = 4. -/
theorem claim_C6_witness :
    (calculateRungeError [⟨0, 1, 0⟩, ⟨1, 2, 0⟩, ⟨2, 4, 0⟩]
        [⟨0, 1, 0⟩, ⟨2, 3, 0⟩] 4).length =
      min (([(⟨0, 1, 0⟩ : State), ⟨1, 2, 0⟩, ⟨2, 4, 0⟩].length + 1) / 2)
        [(⟨0, 1, 0⟩ : State), ⟨2, 3, 0⟩].length ∧
    (calculateRungeError [⟨0, 1, 0⟩, ⟨1, 2, 0⟩, ⟨2, 4, 0⟩]
        [⟨0, 1, 0⟩, ⟨2, 3, 0⟩] 4).getD 1 0 =
      |(([(⟨0, 1, 0⟩ : State), ⟨1, 2, 0⟩, ⟨2, 4, 0⟩]).getD 2 default).y -
          (([(⟨0, 1, 0⟩ : State), ⟨2, 3, 0⟩]).getD 1 default).y| /
        (1 - (2:ℚ)^(-(4:ℤ))) := by
  have hw := claim_C6_runge_error [⟨0, 1, 0⟩, ⟨1, 2, 0⟩, ⟨2, 4, 0⟩]
    [⟨0, 1, 0⟩, ⟨2, 3, 0⟩] 4
  refine ⟨hw.1, ?_⟩
  have hlen : 1 < (calculateRungeError [⟨0, 1, 0⟩, ⟨1, 2, 0⟩, ⟨2, 4, 0⟩]
      [⟨0, 1, 0⟩, ⟨2, 3, 0⟩] 4).length := by
    rw [hw.1]
    norm_num
  have := hw.2 1 hlen
  simpa using this

end ode
